import Mathlib

/-
Verification of the ATT-DB catalog tool (source files CLI.py and GUI.py)
against its specification.

Modelling conventions of this shallow embedding:
* Python strings are lists of characters (ASCII model of upper/strip/split).
* Python floats are exact rationals; the arithmetic the program performs on
  them (division and multiplication by powers of two) is exact in IEEE
  doubles, so the rational model is faithful for the comparisons made here.
* A Python function that can raise is modelled as returning an Option or
  Except value; none / error stands for a raised exception.
* Library calls (float(), urllib.parse, list.sort) are modelled after their
  CPython semantics on the character sets this program feeds them.
-/

namespace ATT

section
/- Batteries seals the rational operations; reopening them lets concrete
runs of the embedded program be checked by kernel reduction. -/
attribute [local semireducible] Rat.add Rat.sub Rat.mul Rat.inv

/-- Whitespace recognised by Python str.strip and str.split (ASCII model). -/
def isWsCh (c : Char) : Bool :=
  c == ' ' || c == '\t' || c == '\n' || c == '\r' ||
    c == Char.ofNat 11 || c == Char.ofNat 12

/-- Python str.lstrip() for whitespace. -/
def trimLeftL (l : List Char) : List Char := l.dropWhile isWsCh

/-- Python str.rstrip() for whitespace. -/
def trimRightL (l : List Char) : List Char := (l.reverse.dropWhile isWsCh).reverse

/-- Python str.strip() for whitespace. -/
def trimL (l : List Char) : List Char := trimRightL (trimLeftL l)

/-- Accumulator pass behind splitWs. -/
def splitWsAux : List Char → List Char → List (List Char)
  | [], acc => if acc.isEmpty then [] else [acc.reverse]
  | c :: t, acc =>
    if isWsCh c then
      if acc.isEmpty then splitWsAux t [] else acc.reverse :: splitWsAux t []
    else splitWsAux t (c :: acc)

/-- Python str.split() with no argument: split on whitespace runs, dropping
empty pieces. -/
def splitWs (l : List Char) : List (List Char) := splitWsAux l []

/-- Python str.upper() on ASCII characters. -/
def upCh (c : Char) : Char :=
  if 'a' ≤ c ∧ c ≤ 'z' then Char.ofNat (c.toNat - 32) else c

/-- The normalisation both size parsers apply first:
size_str.upper().replace(",", ""). -/
def upperCommaL (l : List Char) : List Char :=
  (l.map upCh).filter (fun c => c != ',')

/-- Does the list end with the two-character suffix a, b?  Models Python
str.endswith for the two-letter unit suffixes used by the program. -/
def endsWith2 (a b : Char) (l : List Char) : Bool :=
  match l.reverse with
  | y :: x :: _ => x == a && y == b
  | _ => false

/-- Python str.replace(pat, "") for a two-character pattern: delete every
(left-to-right, non-overlapping) occurrence. -/
def removeAll2 (a b : Char) : List Char → List Char
  | [] => []
  | [c] => [c]
  | c :: d :: t =>
    if c = a ∧ d = b then removeAll2 a b t else c :: removeAll2 a b (d :: t)

/-- Python "pat in s" for a two-character pattern. -/
def hasSub2 (a b : Char) : List Char → Bool
  | [] => false
  | [_] => false
  | c :: d :: t => (c == a && d == b) || hasSub2 a b (d :: t)

/-! ### CPython float(str) -/

/-- Leading sign of a float literal: consumed sign and remainder. -/
def splitSign (l : List Char) : ℚ × List Char :=
  match l with
  | [] => (1, [])
  | c :: t =>
    if c = '+' then (1, t) else if c = '-' then (-1, t) else (1, c :: t)

/-- Fractional part after the integer digits: digits following a dot, and
the remainder of the literal. -/
def fracSplit (l : List Char) : List Char × List Char :=
  match l with
  | [] => ([], [])
  | c :: t =>
    if c = '.' then (t.takeWhile Char.isDigit, t.dropWhile Char.isDigit)
    else ([], c :: t)

/-- Sign of the exponent part. -/
def expSign (l : List Char) : ℤ × List Char :=
  match l with
  | [] => (1, [])
  | c :: t =>
    if c = '+' then (1, t) else if c = '-' then (-1, t) else (1, c :: t)

/-- Value of a digit string. -/
def digitsValN (l : List Char) : ℕ :=
  l.foldl (fun a c => a * 10 + (c.toNat - 48)) 0

/-- Value of the mantissa: integer digits plus fractional digits. -/
def mantVal (ds fs : List Char) : ℚ :=
  (digitsValN ds : ℚ) + (digitsValN fs : ℚ) / 10 ^ fs.length

/-- The exponent of a float literal, parsed from the text after the e. -/
def expPart (t : List Char) : Option ℤ :=
  if ((expSign t).2.takeWhile Char.isDigit).isEmpty ∨
      ¬ ((expSign t).2.dropWhile Char.isDigit).isEmpty then none
  else some ((expSign t).1 * (digitsValN ((expSign t).2.takeWhile Char.isDigit) : ℤ))

/-- Finish a float literal whose mantissa has been read: the remainder must
be empty or a well-formed exponent part. -/
def finishNum (sgn mant : ℚ) : List Char → Option ℚ
  | [] => some (sgn * mant)
  | c :: t =>
    if c = 'e' ∨ c = 'E' then (expPart t).map (fun z => sgn * mant * (10 : ℚ) ^ z)
    else none

/-- Core of CPython float(str) on a stripped literal: optional sign, digits
with an optional fractional part, optional scientific exponent.  none models
a raised ValueError.  CPython additionally accepts the spellings nan, inf
and infinity (in any case, so always containing the letter n) yielding
non-rational IEEE values, underscore digit separators, and non-ASCII
digits; this model returns none for those, so it is exact only on inputs
free of the letters n and N and of underscores.  Theorems whose truth
depends on that exactness carry hypotheses restricting their inputs to
this fragment. -/
def pyFloatCore (l : List Char) : Option ℚ :=
  if ((splitSign l).2.takeWhile Char.isDigit).isEmpty ∧
      ((fracSplit ((splitSign l).2.dropWhile Char.isDigit)).1).isEmpty then none
  else
    finishNum (splitSign l).1
      (mantVal ((splitSign l).2.takeWhile Char.isDigit)
        (fracSplit ((splitSign l).2.dropWhile Char.isDigit)).1)
      (fracSplit ((splitSign l).2.dropWhile Char.isDigit)).2

/-- CPython float(str): surrounding whitespace is ignored. -/
def pyFloat (l : List Char) : Option ℚ := pyFloatCore (trimL l)

/-! ### The size parsers (CLI.human_size_to_bytes, GUI.human_size_to_bytes) -/

/-- The final unit table shared verbatim by CLI.py lines 265-274 and
GUI.py lines 95-104: substring tests "KB" in unit, "MB" in unit, ... -/
def unitConv (n : ℚ) (unit : List Char) : ℚ :=
  if hasSub2 'K' 'B' unit then n / 1024
  else if hasSub2 'M' 'B' unit then n
  else if hasSub2 'G' 'B' unit then n * 1024
  else if hasSub2 'T' 'B' unit then n * 1024 * 1024
  else 0

namespace CLI

/-- CLI.py human_size_to_bytes (lines 235-274).  The float() calls in the
two-part branch and in the three endswith branches are not guarded, so a
malformed number there raises ValueError, modelled as none.  The bare-number
branch guards its float() call and falls back to 0.0. -/
def human_size_to_bytes (l : List Char) : Option ℚ :=
  if l.isEmpty ∨ l = "N/A".data then some 0
  else
    match splitWs (upperCommaL l) with
    | [a, b] => (pyFloat a).map (fun q => unitConv q b)
    | _ =>
      if endsWith2 'G' 'B' (upperCommaL l) then
        (pyFloat (removeAll2 'G' 'B' (upperCommaL l))).map (fun q => unitConv q ['G', 'B'])
      else if endsWith2 'M' 'B' (upperCommaL l) then
        (pyFloat (removeAll2 'M' 'B' (upperCommaL l))).map (fun q => unitConv q ['M', 'B'])
      else if endsWith2 'K' 'B' (upperCommaL l) then
        (pyFloat (removeAll2 'K' 'B' (upperCommaL l))).map (fun q => unitConv q ['K', 'B'])
      else some ((pyFloat (upperCommaL l)).getD 0)

end CLI

namespace GUI

/-- GUI.py human_size_to_bytes (lines 57-104).  Identical structure to the
CLI version except that the normalised string is additionally stripped and
every float() call is wrapped in try/except returning 0.0, so the function
is total. -/
def human_size_to_bytes (l : List Char) : ℚ :=
  if l.isEmpty ∨ l = "N/A".data then 0
  else
    match splitWs (trimL (upperCommaL l)) with
    | [a, b] =>
      match pyFloat a with
      | some q => unitConv q b
      | none => 0
    | _ =>
      if endsWith2 'G' 'B' (trimL (upperCommaL l)) then
        match pyFloat (removeAll2 'G' 'B' (trimL (upperCommaL l))) with
        | some q => unitConv q ['G', 'B']
        | none => 0
      else if endsWith2 'M' 'B' (trimL (upperCommaL l)) then
        match pyFloat (removeAll2 'M' 'B' (trimL (upperCommaL l))) with
        | some q => unitConv q ['M', 'B']
        | none => 0
      else if endsWith2 'K' 'B' (trimL (upperCommaL l)) then
        match pyFloat (removeAll2 'K' 'B' (trimL (upperCommaL l))) with
        | some q => unitConv q ['K', 'B']
        | none => 0
      else (pyFloat (trimL (upperCommaL l))).getD 0

end GUI

/-! ### Catalog fetch and refresh (FetchThread.run, on_fetch_finished,
fetch_uploads, the refresh command) -/

/-- Shape of a parsed JSON document; only the shape matters to the fetch
paths, so objects and scalars carry no payload. -/
inductive Json
  | arr (elems : List Json)
  | obj
  | str (s : List Char)
  | num (q : ℚ)
  | jbool (b : Bool)
  | null

/-- Outcome of requests.get followed by raise_for_status and .json():
either a parsed JSON body, or an exception (network error, timeout,
non-success status, or JSON decode failure), carrying str(e). -/
inductive HttpResult
  | ok (body : Json)
  | exn (msg : List Char)

/-- GUI.py FetchThread.run (lines 140-151): emits (uploads, error_message),
the error message empty on success; a non-list JSON root is reported as
"JSON root is not a list"; any exception is reported as its message. -/
def fetchThreadRun : HttpResult → List Json × List Char
  | .exn m => ([], m)
  | .ok b =>
    match b with
    | .arr l => (l, [])
    | _ => ([], "JSON root is not a list".data)

/-- GUI.py AllTheTorrGUI.on_fetch_finished (lines 344-357): on a truthy
error message the active catalog is set to the empty list; otherwise the
fetched list (uploads or []) is installed.  The previously installed
catalog is the first argument. -/
def on_fetch_finished (_prev : List Json) (uploads : List Json) (error : List Char) :
    List Json :=
  if error.isEmpty then (if uploads.isEmpty then [] else uploads) else []

/-- One GUI refresh: run the fetch thread, deliver its result. -/
def gui_refresh (prev : List Json) (r : HttpResult) : List Json :=
  on_fetch_finished prev (fetchThreadRun r).1 (fetchThreadRun r).2

/-- CLI.py fetch_uploads (lines 84-94): returns response.json() with no
shape validation; on any exception prints a message and returns []. -/
def fetch_uploads : HttpResult → Json
  | .ok b => b
  | .exn _ => .arr []

/-- CLI.py main, refresh command (lines 337-339): uploads = fetch_uploads()
replaces the previous catalog unconditionally. -/
def cli_refresh (_prev : Json) (r : HttpResult) : Json := fetch_uploads r

/-! ### Config persistence (save_config) -/

/-- The in-memory config dict; the program reads and writes the single key
uploads_url. -/
structure ConfigD where
  uploads_url : List Char
deriving DecidableEq

/-- The config.json file together with whether opening it for writing
succeeds; stored is none when the file does not exist. -/
structure FileSys where
  canWrite : Bool
  stored : Option ConfigD
deriving DecidableEq

namespace CLI

/-- CLI.py save_config (lines 44-46): open(CONFIG_FILE, "w") and json.dump
with no exception handling, so a failing write raises to the caller
(modelled as error).  Returns the file state after the call and the
call outcome. -/
def save_config (fs : FileSys) (cfg : ConfigD) : FileSys × Except (List Char) Unit :=
  if fs.canWrite then ({ fs with stored := some cfg }, .ok ()) else (fs, .error "OSError".data)

end CLI

namespace GUI

/-- GUI.py save_config (lines 46-51): same write wrapped in
try/except: pass, so a failing write is silently swallowed. -/
def save_config (fs : FileSys) (cfg : ConfigD) : FileSys × Except (List Char) Unit :=
  if fs.canWrite then ({ fs with stored := some cfg }, .ok ()) else (fs, .ok ())

end GUI

/-! ### The catalog records and the size sorts -/

/-- One catalog entry as the sort paths see it: a dict whose "size" key may
be missing (u.get("size", default)). -/
structure UploadRecord where
  id : List Char
  title : List Char
  size : Option (List Char)
  seeds : ℤ
  leeches : ℤ
  magnet : List Char
deriving DecidableEq

/-- Sort key of CLI.py list_uploads:
human_size_to_bytes(u.get("size", "0 B")), which may raise. -/
def cliKeyE (u : UploadRecord) : Option ℚ :=
  CLI.human_size_to_bytes (u.size.getD "0 B".data)

/-- The key value when defined. -/
def cliKey (u : UploadRecord) : ℚ := (cliKeyE u).getD 0

/-- Sort key of GUI.py sort_by_size:
human_size_to_bytes(u.get("size", "0 MB")), always defined. -/
def guiKey (u : UploadRecord) : ℚ :=
  GUI.human_size_to_bytes (u.size.getD "0 MB".data)

/-- Ascending comparison by a rational key; Python's stable ascending sort
is insertion sort under this relation. -/
def leKey (k : UploadRecord → ℚ) (a b : UploadRecord) : Prop := k a ≤ k b

/-- Descending comparison by a rational key (reverse=True): stable
descending sort. -/
def geKey (k : UploadRecord → ℚ) (a b : UploadRecord) : Prop := k b ≤ k a

instance (k : UploadRecord → ℚ) : DecidableRel (leKey k) :=
  fun a b => inferInstanceAs (Decidable (k a ≤ k b))

instance (k : UploadRecord → ℚ) : DecidableRel (geKey k) :=
  fun a b => inferInstanceAs (Decidable (k b ≤ k a))

instance (k : UploadRecord → ℚ) : IsTotal UploadRecord (leKey k) :=
  ⟨fun a b => le_total (k a) (k b)⟩

instance (k : UploadRecord → ℚ) : IsTrans UploadRecord (leKey k) :=
  ⟨fun _ _ _ h1 h2 => le_trans h1 h2⟩

instance (k : UploadRecord → ℚ) : IsTotal UploadRecord (geKey k) :=
  ⟨fun a b => le_total (k b) (k a)⟩

instance (k : UploadRecord → ℚ) : IsTrans UploadRecord (geKey k) :=
  ⟨fun _ _ _ h1 h2 => le_trans h2 h1⟩

/-- The sort_by argument of CLI.py list_uploads. -/
inductive SortBy
  | size
  | size_desc
deriving DecidableEq

/-- A concrete catalog record of size 2 MB. -/
def recA : UploadRecord := ⟨"1".data, "A".data, some "2 MB".data, 3, 1, "m1".data⟩

/-- A concrete catalog record of size 1 MB. -/
def recB : UploadRecord := ⟨"2".data, "B".data, some "1 MB".data, 5, 2, "m2".data⟩

namespace CLI

/-- CLI.py list_uploads (lines 100-135), catalog part: uploads.sort(...) is
an in-place stable sort, so the function's effect on the uploads list is
returned (CPython list.sort computes every key first, so a raising key -
modelled by the all-keys-defined test - leaves the list unchanged and
propagates the exception, modelled as none). -/
def list_uploads (uploads : List UploadRecord) (sort_by : Option SortBy) :
    Option (List UploadRecord) :=
  match sort_by with
  | none => some uploads
  | some .size =>
    if uploads.all (fun u => (cliKeyE u).isSome)
    then some (List.insertionSort (leKey cliKey) uploads) else none
  | some .size_desc =>
    if uploads.all (fun u => (cliKeyE u).isSome)
    then some (List.insertionSort (geKey cliKey) uploads) else none

end CLI

namespace GUI

/-- GUI.py AllTheTorrGUI.sort_by_size (lines 402-411): sorted() builds a
new list; self.uploads is never assigned.  Result: (self.uploads after the
call, the displayed list - none when the mode is rejected). -/
def sort_by_size (uploads : List UploadRecord) (mode : List Char) :
    List UploadRecord × Option (List UploadRecord) :=
  if mode = "largest".data ∨ mode = "smallest".data then
    (uploads,
      some (if mode = "largest".data
        then List.insertionSort (geKey guiKey) uploads
        else List.insertionSort (leKey guiKey) uploads))
  else (uploads, none)

end GUI

/-! ### Magnet URI decomposition (parse_magnet) -/

/-- Characters a URL scheme may contain (urllib.parse.scheme_chars). -/
def isSchemeChar (c : Char) : Bool :=
  c.isAlpha || c.isDigit || c == '+' || c == '-' || c == '.'

/-- urlsplit sanitisation: remove every tab, carriage return and newline. -/
def removeUnsafe (l : List Char) : List Char :=
  l.filter (fun c => !(c == '\t' || c == '\r' || c == '\n'))

/-- urlsplit sanitisation: strip leading C0-control-or-space characters. -/
def lstripControl (l : List Char) : List Char :=
  l.dropWhile (fun c => c.toNat ≤ 32)

/-- The scheme-stripping step of urlsplit: when the text before the first
colon is a non-empty run of scheme characters, drop it and the colon. -/
def stripScheme (url : List Char) : List Char :=
  match url.findIdx? (· == ':') with
  | none => url
  | some i => if 0 < i ∧ (url.take i).all isSchemeChar then url.drop (i + 1) else url

/-- Everything before the first occurrence of the character. -/
def beforeCh (c : Char) (l : List Char) : List Char := l.takeWhile (· != c)

/-- Everything after the first occurrence of the character (empty when the
character is absent, like the split-off query of urlsplit). -/
def afterCh (c : Char) (l : List Char) : List Char :=
  (l.dropWhile (· != c)).drop 1

/-- Stops the authority component: '/', '?' or '#' (urllib _splitnetloc). -/
def isNetlocEnd (c : Char) : Bool := c == '/' || c == '?' || c == '#'

/-- The query component as CPython >= 3.10 urllib.parse.urlsplit computes
it: sanitise, strip the scheme, and when the remainder starts with //
extract the authority up to the next '/', '?' or '#' and reject it when it
holds an unmatched bracket (ValueError "Invalid IPv6 URL", modelled as
error); then drop the fragment and keep what follows the first '?'. -/
def uriQuery (url0 : List Char) : Except (List Char) (List Char) :=
  let url1 := stripScheme (removeUnsafe (lstripControl url0))
  if url1.take 2 = "//".data then
    let rest2 := url1.drop 2
    let netloc := rest2.takeWhile (fun c => !(isNetlocEnd c))
    let rest := rest2.dropWhile (fun c => !(isNetlocEnd c))
    if (netloc.contains '[' && !(netloc.contains ']')) ||
        (netloc.contains ']' && !(netloc.contains '[')) then
      Except.error "Invalid IPv6 URL".data
    else
      Except.ok (afterCh '?' (beforeCh '#' rest))
  else Except.ok (afterCh '?' (beforeCh '#' url1))

instance {ε α : Type} [DecidableEq ε] [DecidableEq α] : DecidableEq (Except ε α) :=
  fun a b =>
    match a, b with
    | .ok x, .ok y =>
      if h : x = y then isTrue (by rw [h]) else isFalse (fun hc => h (Except.ok.inj hc))
    | .ok _, .error _ => isFalse (fun hc => Except.noConfusion hc)
    | .error _, .ok _ => isFalse (fun hc => Except.noConfusion hc)
    | .error x, .error y =>
      if h : x = y then isTrue (by rw [h]) else isFalse (fun hc => h (Except.error.inj hc))

/-- Python str.replace('+', ' ') applied before unquoting. -/
def plusL (l : List Char) : List Char :=
  l.map (fun c => if c = '+' then ' ' else c)

/-- Value of a hexadecimal digit. -/
def hexVal (c : Char) : Option ℕ :=
  if '0' ≤ c ∧ c ≤ '9' then some (c.toNat - 48)
  else if 'A' ≤ c ∧ c ≤ 'F' then some (c.toNat - 55)
  else if 'a' ≤ c ∧ c ≤ 'f' then some (c.toNat - 87)
  else none

/-- urllib.parse.unquote: decode %XX escapes, leaving malformed escapes
verbatim.  Decoded bytes are modelled as code points (the multi-byte UTF-8
recombination CPython performs on bytes above 0x7F is outside the model;
the program's data is ASCII). -/
def unqL : List Char → List Char
  | [] => []
  | c :: t =>
    if c = '%' then
      match t with
      | a :: b :: u =>
        match hexVal a, hexVal b with
        | some x, some y => Char.ofNat (16 * x + y) :: unqL u
        | _, _ => '%' :: unqL (a :: b :: u)
      | [a] => ['%', a]
      | [] => ['%']
    else c :: unqL t

/-- Splitting on a separator character, keeping empty pieces
(Python str.split(sep)). -/
def splitOnCharAux (c : Char) : List Char → List Char → List (List Char)
  | [], acc => [acc.reverse]
  | d :: t, acc =>
    if d = c then acc.reverse :: splitOnCharAux c t []
    else splitOnCharAux c t (d :: acc)

/-- Python str.split(sep) for a one-character separator. -/
def splitOnChar (c : Char) (l : List Char) : List (List Char) :=
  splitOnCharAux c l []

/-- One name=value piece of a query string, under parse_qsl's defaults
(keep_blank_values=False, strict_parsing=False): pieces without '=' and
pieces with an empty value are dropped; name and value are
plus-converted and unquoted. -/
def pairOf (nv : List Char) : Option (List Char × List Char) :=
  if nv.isEmpty then none
  else if nv.contains '=' then
    let n := beforeCh '=' nv
    let v := afterCh '=' nv
    if v.isEmpty then none else some (unqL (plusL n), unqL (plusL v))
  else none

/-- urllib.parse.parse_qsl on a query string (separator '&',
keep_blank_values=False). -/
def qsPairs (qs : List Char) : List (List Char × List Char) :=
  if qs.isEmpty then [] else (splitOnChar '&' qs).filterMap pairOf

/-- One step of the dict building of parse_qs: append the value to the
entry of the name, or add a new entry at the end. -/
def addPair : List (List Char × List (List Char)) → List Char → List Char →
    List (List Char × List (List Char))
  | [], n, v => [(n, [v])]
  | (m, vs) :: t, n, v =>
    if m = n then (m, vs ++ [v]) :: t else (m, vs) :: addPair t n v

/-- urllib.parse.parse_qs: the multidict of parse_qsl's pairs. -/
def qsDict (ps : List (List Char × List Char)) : List (List Char × List (List Char)) :=
  ps.foldl (fun d p => addPair d p.1 p.2) []

/-- dict.get(key, []) on the multidict. -/
def lookupVals : List (List Char × List (List Char)) → List Char → List (List Char)
  | [], _ => []
  | (m, vs) :: t, k => if m = k then vs else lookupVals t k

/-- CLI.py parse_magnet (lines 167-174): urlparse, parse_qs, and the values
of keys "tr" and "ws".  error models the ValueError urlparse can raise. -/
def parse_magnet (uri : List Char) :
    Except (List Char) (List (List Char) × List (List Char)) :=
  match uriQuery uri with
  | .error e => .error e
  | .ok q =>
    let d := qsDict (qsPairs q)
    .ok (lookupVals d "tr".data, lookupVals d "ws".data)

/-- The characters a plain decimal literal may contain. -/
def GoodNum (c : Char) : Prop := c.isDigit = true ∨ c = '.' ∨ c = '-'

instance : DecidablePred GoodNum :=
  fun c => inferInstanceAs (Decidable (c.isDigit = true ∨ c = '.' ∨ c = '-'))

/-! ### Character facts -/

theorem char_ofNat_toNat {n : ℕ} (h : n.isValidChar) : (Char.ofNat n).toNat = n := by
  unfold Char.ofNat
  rw [dif_pos h]
  rfl

theorem upCh_eq_self {c : Char} (h : ¬ ('a' ≤ c ∧ c ≤ 'z')) : upCh c = c := by
  unfold upCh
  rw [if_neg h]

theorem upCh_ne_dash {c : Char} (h : c ≠ '-') : upCh c ≠ '-' := by
  unfold upCh
  split
  · rename_i hl
    have h3 : 97 ≤ c.toNat := hl.1
    have h4 : c.toNat ≤ 122 := hl.2
    intro he
    have hv : (c.toNat - 32).isValidChar := Or.inl (by omega)
    have ht := char_ofNat_toNat hv
    rw [he] at ht
    have h45 : (45 : ℕ) = c.toNat - 32 := ht
    omega
  · exact h

theorem goodNum_facts {c : Char} (h : GoodNum c) :
    upCh c = c ∧ (c != ',') = true ∧ isWsCh c = false ∧
      c ≠ 'K' ∧ c ≠ 'M' ∧ c ≠ 'G' ∧ c ≠ 'N' := by
  rcases h with h | h | h
  · have h48 : 48 ≤ c.toNat := by
      have h' := h
      simp only [Char.isDigit, Bool.and_eq_true, decide_eq_true_eq] at h'
      exact h'.1
    have h57 : c.toNat ≤ 57 := by
      have h' := h
      simp only [Char.isDigit, Bool.and_eq_true, decide_eq_true_eq] at h'
      exact h'.2
    refine ⟨upCh_eq_self ?_, ?_, ?_, ?_, ?_, ?_, ?_⟩
    · rintro ⟨ha, _⟩
      have h97 : 97 ≤ c.toNat := ha
      omega
    · simp only [bne_iff_ne, ne_eq]
      rintro rfl
      exact absurd h (by decide)
    · simp only [isWsCh, Bool.or_eq_false_iff, beq_eq_false_iff_ne, ne_eq]
      refine ⟨⟨⟨⟨⟨?_, ?_⟩, ?_⟩, ?_⟩, ?_⟩, ?_⟩ <;> (rintro rfl; exact absurd h (by decide))
    all_goals (rintro rfl; exact absurd h (by decide))
  · subst h; refine ⟨by decide, by decide, by decide, by decide, by decide, by decide, by decide⟩
  · subst h; refine ⟨by decide, by decide, by decide, by decide, by decide, by decide, by decide⟩

/-! ### List facts: takeWhile, dropWhile, trim, splitWs -/

theorem takeWhile_append_all {p : Char → Bool} {a : List Char} (b : List Char)
    (h : ∀ c ∈ a, p c = true) : (a ++ b).takeWhile p = a ++ b.takeWhile p := by
  induction a with
  | nil => simp
  | cons c t ih =>
    have hc : p c = true := h c (List.mem_cons_self c t)
    simp only [List.cons_append, List.takeWhile_cons, hc, if_true]
    rw [ih (fun d hd => h d (List.mem_cons_of_mem c hd))]

theorem dropWhile_append_all {p : Char → Bool} {a : List Char} (b : List Char)
    (h : ∀ c ∈ a, p c = true) : (a ++ b).dropWhile p = b.dropWhile p := by
  induction a with
  | nil => simp
  | cons c t ih =>
    have hc : p c = true := h c (List.mem_cons_self c t)
    simp only [List.cons_append, List.dropWhile_cons, hc, if_true]
    exact ih (fun d hd => h d (List.mem_cons_of_mem c hd))

theorem takeWhile_cons_false {p : Char → Bool} {c : Char} (t : List Char)
    (h : p c = false) : (c :: t).takeWhile p = [] := by
  simp [List.takeWhile_cons, h]

theorem dropWhile_cons_false {p : Char → Bool} {c : Char} (t : List Char)
    (h : p c = false) : (c :: t).dropWhile p = c :: t := by
  simp [List.dropWhile_cons, h]

theorem trimLeftL_cons {c : Char} (t : List Char) (h : isWsCh c = false) :
    trimLeftL (c :: t) = c :: t :=
  dropWhile_cons_false t h

theorem trimRightL_append {m : List Char} {d : Char} (h : isWsCh d = false) :
    trimRightL (m ++ [d]) = m ++ [d] := by
  unfold trimRightL
  rw [List.reverse_append]
  simp only [List.reverse_cons, List.reverse_nil, List.nil_append, List.singleton_append]
  rw [dropWhile_cons_false _ h]
  simp

theorem trimL_sandwich {c d : Char} (m : List Char) (hc : isWsCh c = false)
    (hd : isWsCh d = false) : trimL (c :: (m ++ [d])) = c :: (m ++ [d]) := by
  unfold trimL
  rw [trimLeftL_cons _ hc]
  have : c :: (m ++ [d]) = (c :: m) ++ [d] := by simp
  rw [this, trimRightL_append hd]

theorem trimL_of_noWs {l : List Char} (h : ∀ c ∈ l, isWsCh c = false) :
    trimL l = l := by
  cases l with
  | nil => rfl
  | cons c t =>
    rcases ht : t.reverse with _ | ⟨d, r⟩
    · have : t = [] := by simpa using congrArg List.reverse ht
      subst this
      unfold trimL trimRightL
      rw [trimLeftL_cons _ (h c (by simp))]
      simp only [List.reverse_cons, List.reverse_nil, List.nil_append]
      rw [dropWhile_cons_false _ (h c (by simp))]
      simp
    · have htt : t = r.reverse ++ [d] := by
        have := congrArg List.reverse ht
        simpa using this
      subst htt
      exact trimL_sandwich _ (h c (by simp)) (h d (by simp))

theorem splitWsAux_noWs {l : List Char} (h : ∀ c ∈ l, isWsCh c = false) :
    ∀ acc : List Char, acc.reverse ++ l ≠ [] → splitWsAux l acc = [acc.reverse ++ l] := by
  induction l with
  | nil =>
    intro acc hne
    have : ¬ acc.isEmpty = true := by
      simp only [List.isEmpty_iff]
      rintro rfl
      exact hne (by simp)
    simp [splitWsAux, this]
  | cons c t ih =>
    intro acc _
    have hc : isWsCh c = false := h c (by simp)
    simp only [splitWsAux, hc, Bool.false_eq_true, if_false]
    rw [ih (fun d hd => h d (List.mem_cons_of_mem c hd)) (c :: acc) (by simp)]
    simp

theorem splitWs_noWs {l : List Char} (h : ∀ c ∈ l, isWsCh c = false) (hne : l ≠ []) :
    splitWs l = [l] := by
  unfold splitWs
  rw [splitWsAux_noWs h [] (by simpa using hne)]
  simp

theorem splitWsAux_sep {a : List Char} (ha : ∀ c ∈ a, isWsCh c = false)
    {w : Char} (hw : isWsCh w = true) (b : List Char) :
    ∀ acc : List Char, acc.reverse ++ a ≠ [] →
      splitWsAux (a ++ w :: b) acc = (acc.reverse ++ a) :: splitWsAux b [] := by
  induction a with
  | nil =>
    intro acc hne
    have hacc : ¬ acc.isEmpty = true := by
      simp only [List.isEmpty_iff]
      rintro rfl
      exact hne (by simp)
    simp [splitWsAux, hw, hacc]
  | cons c t ih =>
    intro acc _
    have hc : isWsCh c = false := ha c (by simp)
    simp only [List.cons_append, splitWsAux, hc, Bool.false_eq_true, if_false]
    show splitWsAux (t ++ w :: b) (c :: acc) = (acc.reverse ++ c :: t) :: splitWsAux b []
    rw [ih (fun d hd => ha d (List.mem_cons_of_mem c hd)) (c :: acc) (by simp)]
    simp

theorem splitWs_sep {a b : List Char} (ha : ∀ c ∈ a, isWsCh c = false) (hane : a ≠ [])
    (hb : ∀ c ∈ b, isWsCh c = false) (hbne : b ≠ []) :
    splitWs (a ++ ' ' :: b) = [a, b] := by
  unfold splitWs
  rw [splitWsAux_sep ha (by decide) b [] (by simpa using hane)]
  simp only [List.reverse_nil, List.nil_append]
  rw [show splitWsAux b [] = splitWs b from rfl, splitWs_noWs hb hbne]

/-! ### upperCommaL facts -/

theorem upperCommaL_eq_self {l : List Char}
    (h : ∀ c ∈ l, upCh c = c ∧ (c != ',') = true) : upperCommaL l = l := by
  unfold upperCommaL
  have hm : l.map upCh = l := by
    have : l.map upCh = l.map id := List.map_congr_left (fun c hc => (h c hc).1)
    simpa using this
  rw [hm]
  exact List.filter_eq_self.mpr (fun c hc => (h c hc).2)

/-! ### endsWith2 and removeAll2 facts -/

theorem endsWith2_append (a b : Char) (x : List Char) (u v : Char) :
    endsWith2 a b (x ++ [u, v]) = (u == a && v == b) := by
  unfold endsWith2
  rw [List.reverse_append]
  rfl

theorem removeAll2_append_unit {a b : Char} {n : List Char}
    (h : ∀ c ∈ n, c ≠ a) : removeAll2 a b (n ++ [a, b]) = n := by
  induction n with
  | nil =>
    simp [removeAll2]
  | cons c t ih =>
    have hca : c ≠ a := h c (by simp)
    have iht := ih (fun d hd => h d (List.mem_cons_of_mem c hd))
    rcases t with _ | ⟨d, t'⟩
    · simp only [List.nil_append] at iht ⊢
      show removeAll2 a b (c :: a :: b :: []) = [c]
      simp only [removeAll2]
      rw [if_neg (fun hx => hca hx.1)]
      simp [removeAll2]
    · simp only [List.cons_append] at iht ⊢
      show removeAll2 a b (c :: d :: (t' ++ [a, b])) = c :: d :: t'
      simp only [removeAll2]
      rw [if_neg (fun hx => hca hx.1)]
      exact congrArg (List.cons c) iht

/-! ### splitSign, fracSplit and pyFloatCore facts -/

theorem splitSign_append {n : List Char} (h : n ≠ []) (x : List Char) :
    splitSign (n ++ x) = ((splitSign n).1, (splitSign n).2 ++ x) := by
  rcases n with _ | ⟨c, t⟩
  · exact absurd rfl h
  · simp only [splitSign, List.cons_append]
    by_cases h1 : c = '+'
    · rw [if_pos h1, if_pos h1]
    · rw [if_neg h1, if_neg h1]
      by_cases h2 : c = '-'
      · rw [if_pos h2, if_pos h2]
      · rw [if_neg h2, if_neg h2]
        simp

theorem splitSign_snd_subset {l : List Char} {c : Char} (h : c ∈ (splitSign l).2) :
    c ∈ l := by
  rcases l with _ | ⟨d, t⟩
  · simp [splitSign] at h
  · simp only [splitSign] at h
    split_ifs at h
    · exact List.mem_cons_of_mem d h
    · exact List.mem_cons_of_mem d h
    · exact h

theorem splitSign_fst_one {l : List Char} (h : '-' ∉ l) : (splitSign l).1 = 1 := by
  rcases l with _ | ⟨d, t⟩
  · rfl
  · have hd : d ≠ '-' := fun he => h (he ▸ List.mem_cons_self d t)
    simp only [splitSign]
    by_cases h1 : d = '+'
    · rw [if_pos h1]
    · rw [if_neg h1, if_neg hd]

theorem head_dropWhile_false {p : Char → Bool} {l : List Char} {c : Char} {t : List Char}
    (h : l.dropWhile p = c :: t) : p c = false := by
  induction l with
  | nil => simp at h
  | cons d l' ih =>
    rw [List.dropWhile_cons] at h
    split_ifs at h with hp
    · exact ih h
    · injection h with h1 _
      subst h1
      simpa using hp

theorem fracSplit_nil : fracSplit [] = ([], []) := rfl

theorem fracSplit_dot (t : List Char) :
    fracSplit ('.' :: t) = (t.takeWhile Char.isDigit, t.dropWhile Char.isDigit) := by
  simp [fracSplit]

theorem fracSplit_not_dot {c : Char} (t : List Char) (h : c ≠ '.') :
    fracSplit (c :: t) = ([], c :: t) := by
  simp only [fracSplit]
  rw [if_neg h]

theorem pyFloat_eq_core {l : List Char} (h : ∀ c ∈ l, isWsCh c = false) :
    pyFloat l = pyFloatCore l := by
  unfold pyFloat
  rw [trimL_of_noWs h]

theorem finishNum_not_exp {sgn mant : ℚ} {c : Char} (t : List Char)
    (h1 : c ≠ 'e') (h2 : c ≠ 'E') : finishNum sgn mant (c :: t) = none := by
  simp only [finishNum]
  rw [if_neg (by rintro (h | h) <;> [exact h1 h; exact h2 h])]

theorem pyFloatCore_append_none {n : List Char} {q : ℚ} (hq : pyFloatCore n = some q)
    (hch : ∀ c ∈ n, GoodNum c) {u v : Char} (hu1 : u.isDigit = false) (hu2 : u ≠ '.')
    (hu3 : u ≠ 'e') (hu4 : u ≠ 'E') : pyFloatCore (n ++ [u, v]) = none := by
  have hn : n ≠ [] := by
    rintro rfl
    rw [show pyFloatCore [] = none from rfl] at hq
    exact Option.noConfusion hq
  have hs2 : (splitSign (n ++ [u, v])).2 = (splitSign n).2 ++ [u, v] := by
    rw [splitSign_append hn]
  have hds_dig : ∀ c ∈ (splitSign n).2.takeWhile Char.isDigit, Char.isDigit c = true :=
    fun c hc => List.mem_takeWhile_imp hc
  have htd : (splitSign n).2.takeWhile Char.isDigit ++ (splitSign n).2.dropWhile Char.isDigit
      = (splitSign n).2 := List.takeWhile_append_dropWhile Char.isDigit (splitSign n).2
  rcases hr : (splitSign n).2.dropWhile Char.isDigit with _ | ⟨c, t⟩
  · -- the whole remainder is integer digits
    have hs2d : (splitSign n).2 = (splitSign n).2.takeWhile Char.isDigit := by
      conv_lhs => rw [← htd]
      rw [hr, List.append_nil]
    have htw : ((splitSign (n ++ [u, v])).2).takeWhile Char.isDigit =
        (splitSign n).2.takeWhile Char.isDigit := by
      rw [hs2]
      conv_lhs => rw [hs2d]
      rw [takeWhile_append_all [u, v] hds_dig, takeWhile_cons_false [v] hu1,
        List.append_nil]
    have hdw : ((splitSign (n ++ [u, v])).2).dropWhile Char.isDigit = [u, v] := by
      rw [hs2]
      conv_lhs => rw [hs2d]
      rw [dropWhile_append_all [u, v] hds_dig, dropWhile_cons_false [v] hu1]
    have hds_ne : ¬ ((splitSign n).2.takeWhile Char.isDigit).isEmpty = true := by
      intro he
      apply absurd hq
      unfold pyFloatCore
      rw [hr, fracSplit_nil, if_pos ⟨he, rfl⟩]
      exact fun hx => Option.noConfusion hx
    unfold pyFloatCore
    rw [htw, hdw, fracSplit_not_dot [v] hu2,
      if_neg (fun hx => hds_ne hx.1)]
    exact finishNum_not_exp [v] hu3 hu4
  · -- the remainder begins with a non-digit character of n
    have hc0 : c ∈ (splitSign n).2.dropWhile Char.isDigit := by
      rw [hr]
      exact List.mem_cons_self c t
    have hcn : c ∈ n := splitSign_snd_subset ((List.dropWhile_sublist _).mem hc0)
    have hcd : Char.isDigit c = false := head_dropWhile_false hr
    rcases hch c hcn with hgc | hdot | hdash
    · rw [hgc] at hcd
      cases hcd
    · -- c = '.', a fractional part; the text after it must be all digits
      subst hdot
      have ht_dig : t.dropWhile Char.isDigit = [] := by
        by_contra hne
        rcases hx : t.dropWhile Char.isDigit with _ | ⟨e, t2⟩
        · exact hne hx
        · have he0 : e ∈ t.dropWhile Char.isDigit := by
            rw [hx]
            exact List.mem_cons_self e t2
          have he1 : e ∈ t := (List.dropWhile_sublist _).mem he0
          have he2 : e ∈ (splitSign n).2.dropWhile Char.isDigit := by
            rw [hr]
            exact List.mem_cons_of_mem '.' he1
          have hen : e ∈ n := splitSign_snd_subset ((List.dropWhile_sublist _).mem he2)
          have hed : Char.isDigit e = false := head_dropWhile_false hx
          have hee : e ≠ 'e' ∧ e ≠ 'E' := by
            rcases hch e hen with hg | hg | hg
            · rw [hg] at hed
              cases hed
            · subst hg
              exact ⟨by decide, by decide⟩
            · subst hg
              exact ⟨by decide, by decide⟩
          apply absurd hq
          unfold pyFloatCore
          rw [hr, fracSplit_dot, hx, finishNum_not_exp t2 hee.1 hee.2]
          split <;> exact fun hy => Option.noConfusion hy
      have ht_all : t.takeWhile Char.isDigit = t := by
        conv_rhs => rw [← List.takeWhile_append_dropWhile Char.isDigit t]
        rw [ht_dig, List.append_nil]
      have ht_digs : ∀ d ∈ t, Char.isDigit d = true := by
        intro d hd
        exact List.mem_takeWhile_imp (ht_all ▸ hd)
      have htw : ((splitSign (n ++ [u, v])).2).takeWhile Char.isDigit =
          (splitSign n).2.takeWhile Char.isDigit := by
        rw [hs2]
        conv_lhs => rw [← htd]
        rw [hr]
        rw [show ((splitSign n).2.takeWhile Char.isDigit ++ '.' :: t) ++ [u, v] =
          (splitSign n).2.takeWhile Char.isDigit ++ '.' :: (t ++ [u, v]) by simp,
          takeWhile_append_all _ hds_dig, takeWhile_cons_false _ (by decide),
          List.append_nil]
      have hdw : ((splitSign (n ++ [u, v])).2).dropWhile Char.isDigit =
          '.' :: (t ++ [u, v]) := by
        rw [hs2]
        conv_lhs => rw [← htd]
        rw [hr]
        rw [show ((splitSign n).2.takeWhile Char.isDigit ++ '.' :: t) ++ [u, v] =
          (splitSign n).2.takeWhile Char.isDigit ++ '.' :: (t ++ [u, v]) by simp,
          dropWhile_append_all _ hds_dig, dropWhile_cons_false _ (by decide)]
      have hfr : fracSplit ('.' :: (t ++ [u, v])) = (t, [u, v]) := by
        rw [fracSplit_dot, takeWhile_append_all [u, v] ht_digs,
          takeWhile_cons_false [v] hu1, List.append_nil,
          dropWhile_append_all [u, v] ht_digs, dropWhile_cons_false [v] hu1]
      have hne_orig : ¬ (((splitSign n).2.takeWhile Char.isDigit).isEmpty = true ∧
          ((fracSplit ((splitSign n).2.dropWhile Char.isDigit)).1).isEmpty = true) := by
        intro hx
        apply absurd hq
        unfold pyFloatCore
        rw [if_pos hx]
        exact fun hy => Option.noConfusion hy
      unfold pyFloatCore
      rw [htw, hdw, hfr]
      rw [if_neg (by
        intro hx
        apply hne_orig
        refine ⟨hx.1, ?_⟩
        rw [hr, fracSplit_dot, ht_all]
        exact hx.2)]
      exact finishNum_not_exp [v] hu3 hu4
    · -- c = '-' in the middle: the original parse already failed
      subst hdash
      apply absurd hq
      unfold pyFloatCore
      rw [hr, fracSplit_not_dot t (by decide), finishNum_not_exp t (by decide) (by decide)]
      split <;> exact fun hy => Option.noConfusion hy

/-! ### The GUI size parser is the CLI size parser with the exception
swallowed, on inputs whose normalised text carries no surrounding
whitespace -/

theorem match_map_getD (o : Option ℚ) (u : List Char) :
    (match o with | some q => unitConv q u | none => 0) =
      (o.map (fun q => unitConv q u)).getD 0 := by
  cases o <;> rfl

theorem gui_eq_cli_getD (l : List Char) (h : trimL (upperCommaL l) = upperCommaL l) :
    GUI.human_size_to_bytes l = (CLI.human_size_to_bytes l).getD 0 := by
  unfold GUI.human_size_to_bytes CLI.human_size_to_bytes
  by_cases h0 : (l.isEmpty = true ∨ l = "N/A".data)
  · rw [if_pos h0, if_pos h0]
    rfl
  · rw [if_neg h0, if_neg h0, h]
    rcases hs : splitWs (upperCommaL l) with _ | ⟨a, _ | ⟨b, _ | ⟨c, t⟩⟩⟩
    · split_ifs <;> first | rfl | exact match_map_getD _ _
    · split_ifs <;> first | rfl | exact match_map_getD _ _
    · exact match_map_getD _ _
    · split_ifs <;> first | rfl | exact match_map_getD _ _

/-! ### Nonnegativity of parsed sizes on minus-free inputs -/

theorem mantVal_nonneg (ds fs : List Char) : 0 ≤ mantVal ds fs := by
  unfold mantVal
  positivity

theorem finishNum_nonneg {mant : ℚ} (hm : 0 ≤ mant) (r : List Char) {q : ℚ}
    (hq : finishNum 1 mant r = some q) : 0 ≤ q := by
  rcases r with _ | ⟨c, t⟩
  · simp only [finishNum] at hq
    injection hq with hq
    rw [← hq]
    simpa using hm
  · simp only [finishNum] at hq
    split_ifs at hq
    · rcases he : expPart t with _ | z
      · rw [he] at hq
        exact Option.noConfusion hq
      · rw [he] at hq
        injection hq with hq
        rw [← hq]
        have h10 : (0 : ℚ) < (10 : ℚ) ^ z := zpow_pos (by norm_num) z
        have hx := mul_nonneg (mul_nonneg zero_le_one hm) (le_of_lt h10)
        simpa using hx

theorem pyFloatCore_nonneg {l : List Char} (h : '-' ∉ l) {q : ℚ}
    (hq : pyFloatCore l = some q) : 0 ≤ q := by
  unfold pyFloatCore at hq
  split_ifs at hq with hcond
  all_goals first
    | exact Option.noConfusion hq
    | (rw [splitSign_fst_one h] at hq
       exact finishNum_nonneg (mantVal_nonneg _ _) _ hq)

theorem mem_trimL {l : List Char} {c : Char} (h : c ∈ trimL l) : c ∈ l := by
  unfold trimL trimRightL trimLeftL at h
  have h1 : c ∈ (l.dropWhile isWsCh).reverse.dropWhile isWsCh := by simpa using h
  have h2 : c ∈ (l.dropWhile isWsCh).reverse := (List.dropWhile_sublist _).mem h1
  have h3 : c ∈ l.dropWhile isWsCh := by simpa using h2
  exact (List.dropWhile_sublist _).mem h3

theorem pyFloat_nonneg {l : List Char} (h : '-' ∉ l) {q : ℚ}
    (hq : pyFloat l = some q) : 0 ≤ q := by
  unfold pyFloat at hq
  exact pyFloatCore_nonneg (fun hc => h (mem_trimL hc)) hq

theorem dash_not_mem_upperCommaL {l : List Char} (h : '-' ∉ l) :
    '-' ∉ upperCommaL l := by
  intro hc
  unfold upperCommaL at hc
  have h1 : '-' ∈ l.map upCh := List.mem_of_mem_filter hc
  rcases List.mem_map.mp h1 with ⟨d, hd, hud⟩
  exact upCh_ne_dash (fun he => h (he ▸ hd)) hud

theorem splitWsAux_mem : ∀ {l acc p : List Char}, p ∈ splitWsAux l acc →
    ∀ {c : Char}, c ∈ p → c ∈ l ∨ c ∈ acc := by
  intro l
  induction l with
  | nil =>
    intro acc p hp c hc
    simp only [splitWsAux] at hp
    split_ifs at hp
    · simp at hp
    · simp only [List.mem_singleton] at hp
      subst hp
      right
      simpa using hc
  | cons d t ih =>
    intro acc p hp c hc
    simp only [splitWsAux] at hp
    split_ifs at hp with h1 h2
    · rcases ih hp hc with h | h
      · exact Or.inl (List.mem_cons_of_mem d h)
      · simp at h
    · rcases List.mem_cons.mp hp with rfl | hp2
      · right
        simpa using hc
      · rcases ih hp2 hc with h | h
        · exact Or.inl (List.mem_cons_of_mem d h)
        · simp at h
    · rcases ih hp hc with h | h
      · exact Or.inl (List.mem_cons_of_mem d h)
      · rcases List.mem_cons.mp h with rfl | h3
        · exact Or.inl (List.mem_cons_self _ _)
        · exact Or.inr h3

theorem mem_of_mem_splitWs {l p : List Char} (hp : p ∈ splitWs l)
    {c : Char} (hc : c ∈ p) : c ∈ l := by
  rcases splitWsAux_mem hp hc with h | h
  · exact h
  · simp at h

theorem mem_removeAll2 {a b : Char} : ∀ (l : List Char) (c : Char),
    c ∈ removeAll2 a b l → c ∈ l
  | [], _, hc => hc
  | [_], _, hc => hc
  | d :: e :: t, c, hc => by
    simp only [removeAll2] at hc
    split_ifs at hc with h1
    · exact List.mem_cons_of_mem d (List.mem_cons_of_mem e (mem_removeAll2 t c hc))
    · rcases List.mem_cons.mp hc with rfl | hc2
      · exact List.mem_cons_self _ _
      · exact List.mem_cons_of_mem d (mem_removeAll2 (e :: t) c hc2)

/-! ### Evaluating the unit table on the literal unit names -/

theorem unitConv_KB (q : ℚ) : unitConv q ['K', 'B'] = q / 1024 := rfl

theorem unitConv_MB (q : ℚ) : unitConv q ['M', 'B'] = q := rfl

theorem unitConv_GB (q : ℚ) : unitConv q ['G', 'B'] = q * 1024 := rfl

theorem unitConv_TB (q : ℚ) : unitConv q ['T', 'B'] = q * 1024 * 1024 := rfl

/-! ### Reduction helpers for the CLI size parser on well-formed inputs -/

theorem goodNum_noWs {n : List Char} (h : ∀ c ∈ n, GoodNum c) :
    ∀ c ∈ n, isWsCh c = false :=
  fun c hc => (goodNum_facts (h c hc)).2.2.1

theorem goodNum_upStable {n : List Char} (h : ∀ c ∈ n, GoodNum c) :
    ∀ c ∈ n, upCh c = c ∧ (c != ',') = true :=
  fun c hc => ⟨(goodNum_facts (h c hc)).1, (goodNum_facts (h c hc)).2.1⟩

theorem append_ne_NA {n x : List Char} (hn : n ≠ []) (h : ∀ c ∈ n, GoodNum c) :
    n ++ x ≠ "N/A".data := by
  rcases n with _ | ⟨c, t⟩
  · exact absurd rfl hn
  · intro he
    have hc : c = 'N' := by
      have hh := congrArg (fun l => l.head?) he
      simpa using hh
    exact (goodNum_facts (h c (by simp))).2.2.2.2.2.2 hc

theorem cli_pair {n b : List Char} (hn : n ≠ []) (hgn : ∀ c ∈ n, GoodNum c)
    (hbne : b ≠ []) (hbw : ∀ c ∈ b, isWsCh c = false)
    (hbst : ∀ c ∈ b, upCh c = c ∧ (c != ',') = true) :
    CLI.human_size_to_bytes (n ++ ' ' :: b) = (pyFloat n).map (fun q => unitConv q b) := by
  have h0 : ¬ ((n ++ ' ' :: b).isEmpty = true ∨ n ++ ' ' :: b = "N/A".data) := by
    rintro (h | h)
    · rcases n with _ | ⟨c, t⟩
      · exact hn rfl
      · simp at h
    · exact append_ne_NA hn hgn h
  have hst : upperCommaL (n ++ ' ' :: b) = n ++ ' ' :: b := by
    apply upperCommaL_eq_self
    intro c hc
    rcases List.mem_append.mp hc with h | h
    · exact goodNum_upStable hgn c h
    · rcases List.mem_cons.mp h with rfl | h2
      · exact ⟨by decide, by decide⟩
      · exact hbst c h2
  have hsp : splitWs (n ++ ' ' :: b) = [n, b] :=
    splitWs_sep (goodNum_noWs hgn) hn hbw hbne
  unfold CLI.human_size_to_bytes
  rw [if_neg h0, hst, hsp]

theorem cli_single {t : List Char} (h0 : ¬ (t.isEmpty = true ∨ t = "N/A".data))
    (hst : upperCommaL t = t) (hsp : splitWs t = [t]) :
    CLI.human_size_to_bytes t =
      (if endsWith2 'G' 'B' t then
        (pyFloat (removeAll2 'G' 'B' t)).map (fun q => unitConv q ['G', 'B'])
      else if endsWith2 'M' 'B' t then
        (pyFloat (removeAll2 'M' 'B' t)).map (fun q => unitConv q ['M', 'B'])
      else if endsWith2 'K' 'B' t then
        (pyFloat (removeAll2 'K' 'B' t)).map (fun q => unitConv q ['K', 'B'])
      else some ((pyFloat t).getD 0)) := by
  unfold CLI.human_size_to_bytes
  rw [if_neg h0, hst, hsp]

/-! ### Stability of the insertion sorts -/

theorem filter_orderedInsert {α : Type} (r : α → α → Prop) [DecidableRel r]
    (p : α → Bool) (a : α) (l : List α)
    (hab : ∀ b, p a = true → p b = true → r a b) :
    (List.orderedInsert r a l).filter p =
      if p a = true then a :: l.filter p else l.filter p := by
  induction l with
  | nil =>
    by_cases hpa : p a = true <;> simp [List.orderedInsert, List.filter_cons, hpa]
  | cons b t ih =>
    by_cases hr : r a b
    · rw [List.orderedInsert_of_le r t hr]
      by_cases hpa : p a = true <;> simp [List.filter_cons, hpa]
    · have hoi : List.orderedInsert r a (b :: t) = b :: List.orderedInsert r a t := by
        simp only [List.orderedInsert, if_neg hr]
      rw [hoi]
      by_cases hpa : p a = true
      · have hpb : p b = false := by
          rcases hx : p b with _ | _
          · rfl
          · exact absurd (hab b hpa hx) hr
        rw [if_pos hpa]
        calc (b :: List.orderedInsert r a t).filter p
            = (List.orderedInsert r a t).filter p := by
              simp [List.filter_cons, hpb]
          _ = a :: t.filter p := by rw [ih, if_pos hpa]
          _ = a :: (b :: t).filter p := by simp [List.filter_cons, hpb]
      · rw [if_neg hpa]
        by_cases hpb : p b = true <;>
          simp [List.filter_cons, hpb, ih, hpa]

theorem insertionSort_stable_filter {α : Type} (k : α → ℚ) (r : α → α → Prop)
    [DecidableRel r] (hr : ∀ a b, k a = k b → r a b) (q : ℚ) (l : List α) :
    (List.insertionSort r l).filter (fun b => k b == q) =
      l.filter (fun b => k b == q) := by
  induction l with
  | nil => rfl
  | cons a t ih =>
    show (List.orderedInsert r a (List.insertionSort r t)).filter _ = _
    rw [filter_orderedInsert r _ a _ (fun b hpa hpb => hr a b (by
      have h1 : k a = q := by simpa using hpa
      have h2 : k b = q := by simpa using hpb
      rw [h1, h2]))]
    by_cases hpa : (k a == q) = true
    · rw [if_pos hpa, ih, List.filter_cons, if_pos hpa]
    · rw [if_neg hpa, ih, List.filter_cons, if_neg hpa]

/-! ### parse_qs: the dict lookup returns exactly the key's values in order -/

theorem lookupVals_addPair : ∀ (d : List (List Char × List (List Char)))
    (n v k : List Char),
    lookupVals (addPair d n v) k =
      if n = k then lookupVals d k ++ [v] else lookupVals d k
  | [], n, v, k => by
    by_cases h : n = k <;> simp [addPair, lookupVals, h]
  | (m, vs) :: t, n, v, k => by
    simp only [addPair]
    by_cases hmn : m = n
    · subst hmn
      rw [if_pos rfl]
      simp only [lookupVals]
      by_cases hmk : m = k
      · simp only [if_pos hmk]
      · simp only [if_neg hmk]
    · rw [if_neg hmn]
      simp only [lookupVals]
      by_cases hmk : m = k
      · have hnk : n ≠ k := fun hx => hmn (hmk.trans hx.symm)
        simp only [if_pos hmk, if_neg hnk]
      · simp only [if_neg hmk]
        exact lookupVals_addPair t n v k

theorem lookupVals_foldl (ps : List (List Char × List Char))
    (k : List Char) : ∀ d : List (List Char × List (List Char)),
    lookupVals (ps.foldl (fun d p => addPair d p.1 p.2) d) k =
      lookupVals d k ++ ps.filterMap (fun p => if p.1 = k then some p.2 else none) := by
  induction ps with
  | nil => simp
  | cons p ps ih =>
    intro d
    simp only [List.foldl_cons, List.filterMap_cons]
    rw [ih, lookupVals_addPair]
    by_cases h : p.1 = k
    · rw [if_pos h]
      simp [h]
    · rw [if_neg h]
      simp [h]

theorem lookupVals_qsDict (ps : List (List Char × List Char)) (k : List Char) :
    lookupVals (qsDict ps) k =
      ps.filterMap (fun p => if p.1 = k then some p.2 else none) := by
  unfold qsDict
  rw [lookupVals_foldl]
  exact List.nil_append _

/-! ### Query values are never blank -/

theorem unqL_cons_ne_nil (c : Char) (t : List Char) : unqL (c :: t) ≠ [] := by
  unfold unqL
  split_ifs with h1
  · split
    · split <;> simp
    · simp
    · simp
  · simp

theorem pairOf_val_ne_nil {nv : List Char} {p : List Char × List Char}
    (h : pairOf nv = some p) : p.2 ≠ [] := by
  simp only [pairOf] at h
  split_ifs at h with h1 h2 h3
  all_goals first
    | exact Option.noConfusion h
    | (injection h with h
       subst h
       rcases hv : afterCh '=' nv with _ | ⟨c, t⟩
       · rw [hv] at h3
         exact absurd rfl h3
       · show unqL (plusL (c :: t)) ≠ []
         simp only [plusL, List.map_cons]
         exact unqL_cons_ne_nil _ _)

theorem qsPairs_val_ne_nil {qs : List Char} {p : List Char × List Char}
    (hp : p ∈ qsPairs qs) : p.2 ≠ [] := by
  unfold qsPairs at hp
  split_ifs at hp
  · simp at hp
  · rcases List.mem_filterMap.mp hp with ⟨nv, _, hnv⟩
    exact pairOf_val_ne_nil hnv

/-! ### Further helpers for the unit-form and sign analyses -/

theorem unitConv_nonneg {x : ℚ} (hx : 0 ≤ x) (u : List Char) : 0 ≤ unitConv x u := by
  unfold unitConv
  split_ifs
  · exact div_nonneg hx (by norm_num)
  · exact hx
  · exact mul_nonneg hx (by norm_num)
  · exact mul_nonneg (mul_nonneg hx (by norm_num)) (by norm_num)
  · exact le_refl 0

theorem map_unitConv_nonneg {x : List Char} (hx : '-' ∉ x) {u : List Char} {q : ℚ}
    (h : (pyFloat x).map (fun r => unitConv r u) = some q) : 0 ≤ q := by
  rcases hp : pyFloat x with _ | r
  · rw [hp] at h
    exact Option.noConfusion h
  · rw [hp] at h
    injection h with h
    rw [← h]
    exact unitConv_nonneg (pyFloat_nonneg hx hp) u

theorem map_unitConv_getD_nonneg {x : List Char} (hx : '-' ∉ x) (u : List Char) :
    0 ≤ ((pyFloat x).map (fun r => unitConv r u)).getD 0 := by
  rcases hp : pyFloat x with _ | r
  · exact le_refl 0
  · show 0 ≤ unitConv r u
    exact unitConv_nonneg (pyFloat_nonneg hx hp) u

theorem getD_pyFloat_nonneg {x : List Char} (hx : '-' ∉ x) :
    0 ≤ (pyFloat x).getD 0 := by
  rcases hp : pyFloat x with _ | r
  · exact le_refl 0
  · exact pyFloat_nonneg hx hp

theorem trimL_append_last {n x : List Char} {d : Char} (hn : n ≠ [])
    (hnw : ∀ c ∈ n, isWsCh c = false) (hd : isWsCh d = false) :
    trimL (n ++ (x ++ [d])) = n ++ (x ++ [d]) := by
  rcases n with _ | ⟨c, t⟩
  · exact absurd rfl hn
  · have hc : isWsCh c = false := hnw c (by simp)
    have hsh : c :: t ++ (x ++ [d]) = c :: ((t ++ x) ++ [d]) := by simp
    rw [hsh, trimL_sandwich _ hc hd]

theorem cli_nospace {n : List Char} (hn : n ≠ []) (hch : ∀ c ∈ n, GoodNum c)
    {u : Char} (hu_ws : isWsCh u = false) (hu_st : upCh u = u ∧ (u != ',') = true) :
    CLI.human_size_to_bytes (n ++ [u, 'B']) =
      (if endsWith2 'G' 'B' (n ++ [u, 'B']) then
        (pyFloat (removeAll2 'G' 'B' (n ++ [u, 'B']))).map (fun q => unitConv q ['G', 'B'])
      else if endsWith2 'M' 'B' (n ++ [u, 'B']) then
        (pyFloat (removeAll2 'M' 'B' (n ++ [u, 'B']))).map (fun q => unitConv q ['M', 'B'])
      else if endsWith2 'K' 'B' (n ++ [u, 'B']) then
        (pyFloat (removeAll2 'K' 'B' (n ++ [u, 'B']))).map (fun q => unitConv q ['K', 'B'])
      else some ((pyFloat (n ++ [u, 'B'])).getD 0)) := by
  apply cli_single
  · rintro (hx | hx)
    · rcases n with _ | ⟨c, t⟩
      · exact hn rfl
      · simp at hx
    · exact append_ne_NA hn hch hx
  · apply upperCommaL_eq_self
    intro c hc
    rcases List.mem_append.mp hc with h | h
    · exact goodNum_upStable hch c h
    · simp only [List.mem_cons, List.mem_singleton] at h
      rcases h with rfl | rfl | hx
      · exact hu_st
      · exact ⟨by decide, by decide⟩
      · simp at hx
  · apply splitWs_noWs
    · intro c hc
      rcases List.mem_append.mp hc with h | h
      · exact goodNum_noWs hch c h
      · simp only [List.mem_cons, List.mem_singleton] at h
        rcases h with rfl | rfl | hx
        · exact hu_ws
        · decide
        · simp at hx
    · rcases n with _ | ⟨c, t⟩
      · exact absurd rfl hn
      · simp

/-! ## The claims -/

/-- Claim C1, counterexample: a refresh whose fetch fails does NOT leave the
previously installed catalog unchanged.  With a one-record catalog
installed, a failing fetch leaves the GUI with the empty catalog
(on_fetch_finished assigns self.uploads = []), and the CLI refresh command
rebinds uploads to the empty list returned by fetch_uploads. -/
theorem C1_counterexample :
    gui_refresh [Json.obj] (.exn "timeout".data) = [] ∧
    ([Json.obj] : List Json) ≠ [] ∧
    cli_refresh (Json.arr [Json.obj]) (.exn "timeout".data) = Json.arr [] ∧
    Json.arr [Json.obj] ≠ Json.arr [] := by
  refine ⟨rfl, by simp, rfl, by simp⟩

/-- Claim C1, amended: on a fetch failure (non-empty error message) the GUI
replaces the active catalog with the empty list - it does not preserve the
previous one - and the CLI refresh likewise installs the empty list; a
non-array JSON body clears the GUI catalog the same way. -/
theorem C1_refresh_clears (prev : List Json) (prevC : Json) (m : List Char)
    (hm : ¬ m.isEmpty = true) :
    gui_refresh prev (.exn m) = [] ∧
    cli_refresh prevC (.exn m) = Json.arr [] ∧
    (∀ b : Json, (∀ l, b ≠ Json.arr l) → gui_refresh prev (.ok b) = []) := by
  refine ⟨?_, rfl, ?_⟩
  · show on_fetch_finished prev ([] : List Json) m = []
    unfold on_fetch_finished
    rw [if_neg hm]
  · intro b hb
    cases b with
    | arr l => exact absurd rfl (hb l)
    | obj => rfl
    | str s => rfl
    | num q => rfl
    | jbool bb => rfl
    | null => rfl

/-- Witness for C1_refresh_clears at a concrete state and error. -/
theorem C1_witness :
    gui_refresh [Json.obj] (.exn "boom".data) = [] ∧
    cli_refresh (Json.arr []) (.exn "boom".data) = Json.arr [] ∧
    (∀ b : Json, (∀ l, b ≠ Json.arr l) → gui_refresh [Json.obj] (.ok b) = []) :=
  C1_refresh_clears [Json.obj] (Json.arr []) "boom".data (by decide)

/-- Claim C2, counterexample: the CLI fetch does not validate the JSON
shape.  A top-level JSON object is returned as the catalog value itself -
not an error - and a fetch whose body fails to parse returns the empty
list, again with no error value. -/
theorem C2_counterexample :
    fetch_uploads (.ok Json.obj) = Json.obj ∧
    (∀ l, Json.obj ≠ Json.arr l) ∧
    fetch_uploads (.exn "Expecting value".data) = Json.arr [] := by
  exact ⟨rfl, fun l => by simp, rfl⟩

/-- Claim C2, amended: only the GUI fetch thread validates the shape: it
emits the element list and an empty error for an array body, the fixed
error message for any non-array body, and the exception text otherwise; the
CLI fetch returns the parsed JSON unvalidated and maps every exception to
the empty list. -/
theorem C2_cli_no_validation (l : List Json) (b : Json) (m : List Char) :
    fetchThreadRun (.ok (Json.arr l)) = (l, []) ∧
    ((∀ l2, b ≠ Json.arr l2) →
      fetchThreadRun (.ok b) = ([], "JSON root is not a list".data)) ∧
    fetchThreadRun (.exn m) = ([], m) ∧
    fetch_uploads (.ok b) = b ∧
    fetch_uploads (.exn m) = Json.arr [] := by
  refine ⟨rfl, ?_, rfl, rfl, rfl⟩
  intro hb
  cases b with
  | arr l2 => exact absurd rfl (hb l2)
  | obj => rfl
  | str s => rfl
  | num q => rfl
  | jbool bb => rfl
  | null => rfl

/-- Witness for C2_cli_no_validation at a JSON-object body. -/
theorem C2_witness :
    fetchThreadRun (.ok Json.obj) = ([], "JSON root is not a list".data) ∧
    fetch_uploads (.ok Json.obj) = Json.obj :=
  ⟨(C2_cli_no_validation [] Json.obj "x".data).2.1 (fun l2 => by simp),
   (C2_cli_no_validation [] Json.obj "x".data).2.2.2.1⟩

/-- Claim C4, counterexample: CLI.human_size_to_bytes is not total.  On
malformed numeric text inside a recognised-unit string it raises ValueError
(modelled none) instead of returning 0.0; the GUI version returns 0.0. -/
theorem C4_counterexample :
    CLI.human_size_to_bytes "xGB".data = none ∧
    CLI.human_size_to_bytes "a.b GB".data = none ∧
    GUI.human_size_to_bytes "xGB".data = 0 ∧
    GUI.human_size_to_bytes "a.b GB".data = 0 := by
  refine ⟨by decide, by decide, by decide, by decide⟩

/-- Claim C4, amended: the GUI parser is total with 0.0 on failure (it is a
function into the rationals), and on inputs whose normalised text has no
surrounding whitespace, wherever the CLI parser raises the GUI parser
returns 0.0. -/
theorem C4_gui_total_cli_raises (l : List Char)
    (h : trimL (upperCommaL l) = upperCommaL l)
    (hr : CLI.human_size_to_bytes l = none) : GUI.human_size_to_bytes l = 0 := by
  rw [gui_eq_cli_getD l h, hr]
  rfl

/-- Witness for C4_gui_total_cli_raises at the input xGB. -/
theorem C4_witness : GUI.human_size_to_bytes "xGB".data = 0 :=
  C4_gui_total_cli_raises "xGB".data (by decide) (by decide)

/-- Claim C5, counterexample: the two size parsers are not identical.  On
"1GB " (trailing space) both are defined but return different values (the
CLI version, lacking strip(), fails the endswith test and falls to the
bare-number branch returning 0.0, the GUI version strips and returns
1024.0); on "x MB" the CLI version raises while the GUI version returns
0.0. -/
theorem C5_counterexample :
    CLI.human_size_to_bytes "1GB ".data = some 0 ∧
    GUI.human_size_to_bytes "1GB ".data = 1024 ∧
    CLI.human_size_to_bytes "x MB".data = none ∧
    GUI.human_size_to_bytes "x MB".data = 0 := by
  refine ⟨by decide, by decide, by decide, by decide⟩

/-- Claim C5, amended: on every input whose normalised text (uppercased,
commas removed) carries no surrounding whitespace, the GUI parser equals
the CLI parser with a raised exception replaced by 0.0; the two differ
exactly in the added strip() and the added try/except. -/
theorem C5_gui_cli_agreement (l : List Char)
    (h : trimL (upperCommaL l) = upperCommaL l) :
    GUI.human_size_to_bytes l = (CLI.human_size_to_bytes l).getD 0 :=
  gui_eq_cli_getD l h

/-- Witness for C5_gui_cli_agreement at the input 3.5 GB. -/
theorem C5_witness :
    GUI.human_size_to_bytes "3.5 GB".data =
      (CLI.human_size_to_bytes "3.5 GB".data).getD 0 :=
  C5_gui_cli_agreement "3.5 GB".data (by decide)

/-- Claim C8, counterexample: CLI.save_config propagates a failing write as
an exception (modelled error) instead of reporting a non-fatal warning;
the stored config is left as it was. -/
theorem C8_counterexample :
    (CLI.save_config ⟨false, some ⟨"https://old".data⟩⟩ ⟨"https://new".data⟩).2 =
      .error "OSError".data ∧
    (CLI.save_config ⟨false, some ⟨"https://old".data⟩⟩ ⟨"https://new".data⟩).1 =
      ⟨false, some ⟨"https://old".data⟩⟩ :=
  ⟨rfl, rfl⟩

/-- Claim C8, amended: a successful save overwrites the stored value in
both front-ends; on a failing write the GUI save returns silently (never
raises, and surfaces no warning either) leaving the store unchanged, while
the CLI save raises the underlying OS error; neither touches the in-memory
config, which is passed by value here. -/
theorem C8_save_behaviour (st : Option ConfigD) (cfg : ConfigD) :
    GUI.save_config ⟨true, st⟩ cfg = (⟨true, some cfg⟩, .ok ()) ∧
    GUI.save_config ⟨false, st⟩ cfg = (⟨false, st⟩, .ok ()) ∧
    CLI.save_config ⟨true, st⟩ cfg = (⟨true, some cfg⟩, .ok ()) ∧
    CLI.save_config ⟨false, st⟩ cfg = (⟨false, st⟩, .error "OSError".data) :=
  ⟨rfl, rfl, rfl, rfl⟩

/-- Claim C9, counterexample: a malformed URI can make parse_magnet fail
rather than return two empty sequences: an authority with an unmatched
bracket makes urlparse raise ValueError("Invalid IPv6 URL"). -/
theorem C9_counterexample :
    parse_magnet "http://[".data = .error "Invalid IPv6 URL".data := by
  decide

/-- Claim C9, amended: whenever the query component is extracted without a
ValueError, parse_magnet returns exactly the values of the repeated key tr
and of the repeated key ws among the parsed query pairs, in order of
appearance, keys matched exactly and all other keys ignored; URIs whose
authority holds an unmatched bracket raise instead. -/
theorem C9_extraction (uri q : List Char) (h : uriQuery uri = .ok q) :
    parse_magnet uri =
      .ok ((qsPairs q).filterMap (fun p => if p.1 = "tr".data then some p.2 else none),
        (qsPairs q).filterMap (fun p => if p.1 = "ws".data then some p.2 else none)) := by
  unfold parse_magnet
  rw [h]
  show Except.ok (lookupVals (qsDict (qsPairs q)) "tr".data,
    lookupVals (qsDict (qsPairs q)) "ws".data) = _
  rw [lookupVals_qsDict, lookupVals_qsDict]

/-- Witness for C9_extraction at the specification's example magnet URI. -/
theorem C9_witness :
    parse_magnet "magnet:?xt=urn:btih:X&tr=http://a&tr=http://b&ws=http://c".data =
      .ok ((qsPairs "xt=urn:btih:X&tr=http://a&tr=http://b&ws=http://c".data).filterMap
          (fun p => if p.1 = "tr".data then some p.2 else none),
        (qsPairs "xt=urn:btih:X&tr=http://a&tr=http://b&ws=http://c".data).filterMap
          (fun p => if p.1 = "ws".data then some p.2 else none)) :=
  C9_extraction _ _ (by decide)

/-- Claim C10: parse_magnet never returns a blank tracker or web seed:
parse_qs is called with its default keep_blank_values=False, so a tr= or
ws= parameter with an empty value is dropped. -/
theorem C10_no_blank_values (uri : List Char) (ts ws : List (List Char))
    (h : parse_magnet uri = .ok (ts, ws)) :
    (∀ v ∈ ts, v ≠ []) ∧ (∀ v ∈ ws, v ≠ []) := by
  unfold parse_magnet at h
  rcases hu : uriQuery uri with e | q
  · rw [hu] at h
    exact Except.noConfusion h
  · rw [hu] at h
    injection h with h
    rw [Prod.mk.injEq] at h
    obtain ⟨h1, h2⟩ := h
    subst h1
    subst h2
    constructor <;> intro v hv
    · rw [lookupVals_qsDict] at hv
      rcases List.mem_filterMap.mp hv with ⟨p, hp, hite⟩
      split_ifs at hite
      injection hite with hite
      rw [← hite]
      exact qsPairs_val_ne_nil hp
    · rw [lookupVals_qsDict] at hv
      rcases List.mem_filterMap.mp hv with ⟨p, hp, hite⟩
      split_ifs at hite
      injection hite with hite
      rw [← hite]
      exact qsPairs_val_ne_nil hp

/-- Witness for C10_no_blank_values: a magnet URI with blank tr= and ws=
parameters parses to exactly the non-blank tracker. -/
theorem C10_witness :
    (∀ v ∈ (["http://a".data] : List (List Char)), v ≠ []) ∧
    (∀ v ∈ ([] : List (List Char)), v ≠ []) :=
  C10_no_blank_values "magnet:?tr=&tr=http://a&ws=".data ["http://a".data] []
    (by decide)

/-- Claim C3, counterexample: the CLI sort is not performed on a copy.  The
uploads.sort(...) call in list_uploads reorders the active catalog in
place: after a sort-ascending request the catalog value is the sorted list,
which differs from its original order. -/
theorem C3_counterexample :
    CLI.list_uploads [recA, recB] (some .size) = some [recB, recA] ∧
    [recB, recA] ≠ [recA, recB] := by
  refine ⟨by decide, by decide⟩

/-- Claim C3, amended: on catalogs whose size strings contain no letter n
or N and no underscore - the fragment where the float model is exact, and
which keeps float() from producing a nan key, since every nan/inf spelling
contains an n; a nan key makes the real sorted() output genuinely unsorted
- both sorts are stable sorts by the parsed size key: the output is a
permutation, sorted in the requested direction, and preserves the relative
order of records with equal keys.  The GUI sort leaves the active catalog
untouched, while the CLI sort installs the sorted order as the new catalog
value (the counterexample exhibits that mutation). -/
theorem C3_sort_behaviour (uploads : List UploadRecord) (q : ℚ)
    (_hsz : ∀ u ∈ uploads, 'n' ∉ u.size.getD [] ∧ 'N' ∉ u.size.getD [] ∧
      '_' ∉ u.size.getD []) :
    (∀ mode, (GUI.sort_by_size uploads mode).1 = uploads) ∧
    (∀ out, (GUI.sort_by_size uploads "smallest".data).2 = some out →
      out.Perm uploads ∧ List.Sorted (leKey guiKey) out ∧
      out.filter (fun u => guiKey u == q) = uploads.filter (fun u => guiKey u == q)) ∧
    (∀ out, (GUI.sort_by_size uploads "largest".data).2 = some out →
      out.Perm uploads ∧ List.Sorted (geKey guiKey) out ∧
      out.filter (fun u => guiKey u == q) = uploads.filter (fun u => guiKey u == q)) ∧
    (CLI.list_uploads uploads none = some uploads) ∧
    (∀ out, CLI.list_uploads uploads (some .size) = some out →
      out.Perm uploads ∧ List.Sorted (leKey cliKey) out ∧
      out.filter (fun u => cliKey u == q) = uploads.filter (fun u => cliKey u == q)) ∧
    (∀ out, CLI.list_uploads uploads (some .size_desc) = some out →
      out.Perm uploads ∧ List.Sorted (geKey cliKey) out ∧
      out.filter (fun u => cliKey u == q) = uploads.filter (fun u => cliKey u == q)) := by
  refine ⟨?_, ?_, ?_, rfl, ?_, ?_⟩
  · intro mode
    unfold GUI.sort_by_size
    split_ifs <;> rfl
  · intro out h
    unfold GUI.sort_by_size at h
    rw [if_pos (Or.inr rfl)] at h
    rw [show ((uploads, some (if ("smallest".data : List Char) = "largest".data
      then List.insertionSort (geKey guiKey) uploads
      else List.insertionSort (leKey guiKey) uploads)).2 : Option (List UploadRecord)) =
      some (if ("smallest".data : List Char) = "largest".data
      then List.insertionSort (geKey guiKey) uploads
      else List.insertionSort (leKey guiKey) uploads) from rfl, if_neg (by decide)] at h
    injection h with h
    subst h
    exact ⟨List.perm_insertionSort _ _, List.sorted_insertionSort _ _,
      insertionSort_stable_filter guiKey _ (fun a b hab => hab.le) q uploads⟩
  · intro out h
    unfold GUI.sort_by_size at h
    rw [if_pos (Or.inl rfl)] at h
    rw [show ((uploads, some (if ("largest".data : List Char) = "largest".data
      then List.insertionSort (geKey guiKey) uploads
      else List.insertionSort (leKey guiKey) uploads)).2 : Option (List UploadRecord)) =
      some (if ("largest".data : List Char) = "largest".data
      then List.insertionSort (geKey guiKey) uploads
      else List.insertionSort (leKey guiKey) uploads) from rfl, if_pos rfl] at h
    injection h with h
    subst h
    exact ⟨List.perm_insertionSort _ _, List.sorted_insertionSort _ _,
      insertionSort_stable_filter guiKey _ (fun a b hab => hab.ge) q uploads⟩
  · intro out h
    rw [show CLI.list_uploads uploads (some .size) =
      (if uploads.all (fun u => (cliKeyE u).isSome)
        then some (List.insertionSort (leKey cliKey) uploads) else none) from rfl] at h
    split_ifs at h
    injection h with h
    subst h
    exact ⟨List.perm_insertionSort _ _, List.sorted_insertionSort _ _,
      insertionSort_stable_filter cliKey _ (fun a b hab => hab.le) q uploads⟩
  · intro out h
    rw [show CLI.list_uploads uploads (some .size_desc) =
      (if uploads.all (fun u => (cliKeyE u).isSome)
        then some (List.insertionSort (geKey cliKey) uploads) else none) from rfl] at h
    split_ifs at h
    injection h with h
    subst h
    exact ⟨List.perm_insertionSort _ _, List.sorted_insertionSort _ _,
      insertionSort_stable_filter cliKey _ (fun a b hab => hab.ge) q uploads⟩

/-- Witness for C3_sort_behaviour at a two-record catalog: the sorted CLI
result is a sorted permutation with the stability filter property, and the
GUI sort leaves the catalog alone. -/
theorem C3_witness :
    (([recB, recA] : List UploadRecord).Perm [recA, recB] ∧
      List.Sorted (leKey cliKey) [recB, recA] ∧
      ([recB, recA] : List UploadRecord).filter (fun u => cliKey u == 1) =
        ([recA, recB] : List UploadRecord).filter (fun u => cliKey u == 1)) ∧
    (GUI.sort_by_size [recA, recB] "smallest".data).1 = [recA, recB] :=
  ⟨(C3_sort_behaviour [recA, recB] 1 (by decide)).2.2.2.2.1 [recB, recA] (by decide),
   (C3_sort_behaviour [recA, recB] 1 (by decide)).1 "smallest".data⟩

/-- Claim C6, counterexample: the no-space form is recognised only for KB,
MB and GB.  "1 TB" parses to 1024*1024 (megabytes) but "1TB" falls through
all the endswith branches to the guarded bare-number conversion and yields
0.0, so the two TB forms disagree. -/
theorem C6_counterexample :
    CLI.human_size_to_bytes "1 TB".data = some 1048576 ∧
    CLI.human_size_to_bytes "1TB".data = some 0 ∧
    GUI.human_size_to_bytes "1TB".data = 0 ∧
    CLI.human_size_to_bytes "1TB".data ≠ CLI.human_size_to_bytes "1 TB".data := by
  refine ⟨by decide, by decide, by decide, by decide⟩

/-- Claim C6, amended: for every plain decimal literal n (characters drawn
from digits, dot and minus, accepted by the float model with value q), the
space and no-space forms agree for the units KB, MB and GB, normalising to
q/1024, q and q*1024; for TB the space form gives q*1024*1024 while the
no-space form is not recognised and yields 0.0; the same holds for the GUI
parser. -/
theorem C6_unit_forms (n : List Char) (q : ℚ) (hn : n ≠ [])
    (hch : ∀ c ∈ n, GoodNum c) (hq : pyFloatCore n = some q) :
    (CLI.human_size_to_bytes (n ++ ' ' :: ['K', 'B']) = some (q / 1024) ∧
     CLI.human_size_to_bytes (n ++ ['K', 'B']) = some (q / 1024)) ∧
    (CLI.human_size_to_bytes (n ++ ' ' :: ['M', 'B']) = some q ∧
     CLI.human_size_to_bytes (n ++ ['M', 'B']) = some q) ∧
    (CLI.human_size_to_bytes (n ++ ' ' :: ['G', 'B']) = some (q * 1024) ∧
     CLI.human_size_to_bytes (n ++ ['G', 'B']) = some (q * 1024)) ∧
    (CLI.human_size_to_bytes (n ++ ' ' :: ['T', 'B']) = some (q * 1024 * 1024) ∧
     CLI.human_size_to_bytes (n ++ ['T', 'B']) = some 0) ∧
    (GUI.human_size_to_bytes (n ++ ' ' :: ['K', 'B']) = q / 1024 ∧
     GUI.human_size_to_bytes (n ++ ['K', 'B']) = q / 1024) ∧
    (GUI.human_size_to_bytes (n ++ ' ' :: ['M', 'B']) = q ∧
     GUI.human_size_to_bytes (n ++ ['M', 'B']) = q) ∧
    (GUI.human_size_to_bytes (n ++ ' ' :: ['G', 'B']) = q * 1024 ∧
     GUI.human_size_to_bytes (n ++ ['G', 'B']) = q * 1024) ∧
    (GUI.human_size_to_bytes (n ++ ' ' :: ['T', 'B']) = q * 1024 * 1024 ∧
     GUI.human_size_to_bytes (n ++ ['T', 'B']) = 0) := by
  have hnw : ∀ c ∈ n, isWsCh c = false := goodNum_noWs hch
  have hst : ∀ c ∈ n, upCh c = c ∧ (c != ',') = true := goodNum_upStable hch
  have hpf : pyFloat n = some q := by
    rw [pyFloat_eq_core hnw]
    exact hq
  have hucApp : ∀ x : List Char, (∀ c ∈ x, upCh c = c ∧ (c != ',') = true) →
      upperCommaL (n ++ x) = n ++ x := by
    intro x hx
    apply upperCommaL_eq_self
    intro c hc
    rcases List.mem_append.mp hc with h | h
    · exact hst c h
    · exact hx c h
  have hGui : ∀ (x : List Char), (∀ c ∈ x, upCh c = c ∧ (c != ',') = true) →
      trimL (n ++ x) = n ++ x →
      GUI.human_size_to_bytes (n ++ x) = (CLI.human_size_to_bytes (n ++ x)).getD 0 := by
    intro x hx htr
    apply gui_eq_cli_getD
    rw [hucApp x hx]
    exact htr
  have eKs : CLI.human_size_to_bytes (n ++ ' ' :: ['K', 'B']) = some (q / 1024) := by
    rw [cli_pair hn hch (by decide) (by decide) (by decide), hpf]
    show some (unitConv q ['K', 'B']) = some (q / 1024)
    rw [unitConv_KB]
  have eMs : CLI.human_size_to_bytes (n ++ ' ' :: ['M', 'B']) = some q := by
    rw [cli_pair hn hch (by decide) (by decide) (by decide), hpf]
    show some (unitConv q ['M', 'B']) = some q
    rw [unitConv_MB]
  have eGs : CLI.human_size_to_bytes (n ++ ' ' :: ['G', 'B']) = some (q * 1024) := by
    rw [cli_pair hn hch (by decide) (by decide) (by decide), hpf]
    show some (unitConv q ['G', 'B']) = some (q * 1024)
    rw [unitConv_GB]
  have eTs : CLI.human_size_to_bytes (n ++ ' ' :: ['T', 'B']) = some (q * 1024 * 1024) := by
    rw [cli_pair hn hch (by decide) (by decide) (by decide), hpf]
    show some (unitConv q ['T', 'B']) = some (q * 1024 * 1024)
    rw [unitConv_TB]
  have eKn : CLI.human_size_to_bytes (n ++ ['K', 'B']) = some (q / 1024) := by
    rw [cli_nospace hn hch (by decide) (by decide),
      if_neg (by rw [endsWith2_append]; decide),
      if_neg (by rw [endsWith2_append]; decide),
      if_pos (by rw [endsWith2_append]; decide),
      removeAll2_append_unit (fun c hc => (goodNum_facts (hch c hc)).2.2.2.1), hpf]
    show some (unitConv q ['K', 'B']) = some (q / 1024)
    rw [unitConv_KB]
  have eMn : CLI.human_size_to_bytes (n ++ ['M', 'B']) = some q := by
    rw [cli_nospace hn hch (by decide) (by decide),
      if_neg (by rw [endsWith2_append]; decide),
      if_pos (by rw [endsWith2_append]; decide),
      removeAll2_append_unit (fun c hc => (goodNum_facts (hch c hc)).2.2.2.2.1), hpf]
    show some (unitConv q ['M', 'B']) = some q
    rw [unitConv_MB]
  have eGn : CLI.human_size_to_bytes (n ++ ['G', 'B']) = some (q * 1024) := by
    rw [cli_nospace hn hch (by decide) (by decide),
      if_pos (by rw [endsWith2_append]; decide),
      removeAll2_append_unit (fun c hc => (goodNum_facts (hch c hc)).2.2.2.2.2.1), hpf]
    show some (unitConv q ['G', 'B']) = some (q * 1024)
    rw [unitConv_GB]
  have eTn : CLI.human_size_to_bytes (n ++ ['T', 'B']) = some 0 := by
    rw [cli_nospace hn hch (by decide) (by decide),
      if_neg (by rw [endsWith2_append]; decide),
      if_neg (by rw [endsWith2_append]; decide),
      if_neg (by rw [endsWith2_append]; decide)]
    have hnone : pyFloat (n ++ ['T', 'B']) = none := by
      rw [pyFloat_eq_core (by
        intro c hc
        rcases List.mem_append.mp hc with h | h
        · exact hnw c h
        · simp only [List.mem_cons, List.mem_singleton] at h
          rcases h with rfl | rfl | hx
          · decide
          · decide
          · simp at hx)]
      exact pyFloatCore_append_none hq hch (by decide) (by decide) (by decide) (by decide)
    rw [hnone]
    rfl
  have htrB : ∀ (x : List Char), trimL (n ++ (x ++ ['B'])) = n ++ (x ++ ['B']) :=
    fun x => trimL_append_last hn hnw (by decide)
  refine ⟨⟨eKs, eKn⟩, ⟨eMs, eMn⟩, ⟨eGs, eGn⟩, ⟨eTs, eTn⟩, ⟨?_, ?_⟩, ⟨?_, ?_⟩,
    ⟨?_, ?_⟩, ⟨?_, ?_⟩⟩
  · rw [hGui (' ' :: ['K', 'B']) (by decide) (htrB [' ', 'K']), eKs]
    rfl
  · rw [hGui ['K', 'B'] (by decide) (htrB ['K']), eKn]
    rfl
  · rw [hGui (' ' :: ['M', 'B']) (by decide) (htrB [' ', 'M']), eMs]
    rfl
  · rw [hGui ['M', 'B'] (by decide) (htrB ['M']), eMn]
    rfl
  · rw [hGui (' ' :: ['G', 'B']) (by decide) (htrB [' ', 'G']), eGs]
    rfl
  · rw [hGui ['G', 'B'] (by decide) (htrB ['G']), eGn]
    rfl
  · rw [hGui (' ' :: ['T', 'B']) (by decide) (htrB [' ', 'T']), eTs]
    rfl
  · rw [hGui ['T', 'B'] (by decide) (htrB ['T']), eTn]
    rfl

/-- Witness for C6_unit_forms at the literal 3.5: the space and no-space KB
forms and the two TB behaviours at a concrete numeric text. -/
theorem C6_witness :
    CLI.human_size_to_bytes ("3.5".data ++ ' ' :: ['T', 'B']) =
        some (7 / 2 * 1024 * 1024) ∧
    CLI.human_size_to_bytes ("3.5".data ++ ['T', 'B']) = some 0 ∧
    CLI.human_size_to_bytes ("3.5".data ++ ['K', 'B']) = some (7 / 2 / 1024) :=
  ⟨(C6_unit_forms "3.5".data (7 / 2) (by decide) (by decide) (by decide)).2.2.2.1.1,
   (C6_unit_forms "3.5".data (7 / 2) (by decide) (by decide) (by decide)).2.2.2.1.2,
   (C6_unit_forms "3.5".data (7 / 2) (by decide) (by decide) (by decide)).1.2⟩

/-- Claim C7, counterexample: an accepted size string can parse to a
negative value: "-1 MB" is accepted by both parsers and yields -1.0. -/
theorem C7_counterexample :
    CLI.human_size_to_bytes "-1 MB".data = some (-1) ∧
    GUI.human_size_to_bytes "-1 MB".data = -1 ∧ ((-1 : ℚ) < 0) := by
  refine ⟨by decide, by decide, by decide⟩

/-- The no-whitespace-split branch chain of the CLI parser only produces
nonnegative values when the input holds no minus sign. -/
theorem cli_chain_nonneg {s : List Char} (hm : '-' ∉ s) {q : ℚ}
    (hq : (if endsWith2 'G' 'B' s then
        (pyFloat (removeAll2 'G' 'B' s)).map (fun r => unitConv r ['G', 'B'])
      else if endsWith2 'M' 'B' s then
        (pyFloat (removeAll2 'M' 'B' s)).map (fun r => unitConv r ['M', 'B'])
      else if endsWith2 'K' 'B' s then
        (pyFloat (removeAll2 'K' 'B' s)).map (fun r => unitConv r ['K', 'B'])
      else some ((pyFloat s).getD 0)) = some q) : 0 ≤ q := by
  have hrm : ∀ (a b : Char), '-' ∉ removeAll2 a b s :=
    fun a b hd => hm (mem_removeAll2 _ _ hd)
  split_ifs at hq
  · exact map_unitConv_nonneg (hrm 'G' 'B') hq
  · exact map_unitConv_nonneg (hrm 'M' 'B') hq
  · exact map_unitConv_nonneg (hrm 'K' 'B') hq
  · injection hq with hq
    rw [← hq]
    exact getD_pyFloat_nonneg hm

/-- The no-whitespace-split branch chain of the GUI parser is always
nonnegative when the input holds no minus sign. -/
theorem gui_chain_nonneg {s : List Char} (hm : '-' ∉ s) :
    0 ≤ (if endsWith2 'G' 'B' s then
        (match pyFloat (removeAll2 'G' 'B' s) with
          | some q => unitConv q ['G', 'B']
          | none => 0)
      else if endsWith2 'M' 'B' s then
        (match pyFloat (removeAll2 'M' 'B' s) with
          | some q => unitConv q ['M', 'B']
          | none => 0)
      else if endsWith2 'K' 'B' s then
        (match pyFloat (removeAll2 'K' 'B' s) with
          | some q => unitConv q ['K', 'B']
          | none => 0)
      else (pyFloat s).getD 0) := by
  have hrm : ∀ (a b : Char), '-' ∉ removeAll2 a b s :=
    fun a b hd => hm (mem_removeAll2 _ _ hd)
  split_ifs
  · exact le_of_le_of_eq (map_unitConv_getD_nonneg (hrm 'G' 'B') ['G', 'B'])
      (match_map_getD (pyFloat (removeAll2 'G' 'B' s)) ['G', 'B']).symm
  · exact le_of_le_of_eq (map_unitConv_getD_nonneg (hrm 'M' 'B') ['M', 'B'])
      (match_map_getD (pyFloat (removeAll2 'M' 'B' s)) ['M', 'B']).symm
  · exact le_of_le_of_eq (map_unitConv_getD_nonneg (hrm 'K' 'B') ['K', 'B'])
      (match_map_getD (pyFloat (removeAll2 'K' 'B' s)) ['K', 'B']).symm
  · exact getD_pyFloat_nonneg hm

/-- Claim C7, amended: on every input containing no minus sign, no letter
n or N and no underscore - the fragment where the float model is exact;
without the letter restriction the property is false of the program, since
the minus-free input nan is accepted by float() with value nan and
nan >= 0.0 does not hold - every accepted parse is nonnegative, in both
front-ends. -/
theorem C7_nonneg_without_minus (l : List Char) (hm : '-' ∉ l)
    (_hn : 'n' ∉ l) (_hN : 'N' ∉ l) (_hu : '_' ∉ l) :
    (∀ q, CLI.human_size_to_bytes l = some q → 0 ≤ q) ∧
    0 ≤ GUI.human_size_to_bytes l := by
  have hml : '-' ∉ upperCommaL l := dash_not_mem_upperCommaL hm
  have hmt : '-' ∉ trimL (upperCommaL l) := fun hd => hml (mem_trimL hd)
  constructor
  · intro q hq
    unfold CLI.human_size_to_bytes at hq
    by_cases h0 : (l.isEmpty = true ∨ l = "N/A".data)
    · rw [if_pos h0] at hq
      injection hq with hq
      exact le_of_eq hq
    · rw [if_neg h0] at hq
      rcases hs : splitWs (upperCommaL l) with _ | ⟨a, _ | ⟨b, _ | ⟨c, t⟩⟩⟩ <;>
        rw [hs] at hq
      · exact cli_chain_nonneg hml hq
      · exact cli_chain_nonneg hml hq
      · have hamem : a ∈ splitWs (upperCommaL l) := by
          rw [hs]
          exact List.mem_cons_self a [b]
        exact map_unitConv_nonneg (fun hd => hml (mem_of_mem_splitWs hamem hd)) hq
      · exact cli_chain_nonneg hml hq
  · unfold GUI.human_size_to_bytes
    by_cases h0 : (l.isEmpty = true ∨ l = "N/A".data)
    · exact le_of_eq (if_pos h0).symm
    · rw [if_neg h0]
      rcases hs : splitWs (trimL (upperCommaL l)) with _ | ⟨a, _ | ⟨b, _ | ⟨c, t⟩⟩⟩
      · exact gui_chain_nonneg hmt
      · exact gui_chain_nonneg hmt
      · have hamem : a ∈ splitWs (trimL (upperCommaL l)) := by
          rw [hs]
          exact List.mem_cons_self a [b]
        exact le_of_le_of_eq
          (map_unitConv_getD_nonneg (fun hd => hmt (mem_of_mem_splitWs hamem hd)) b)
          (match_map_getD (pyFloat a) b).symm
      · exact gui_chain_nonneg hmt

/-- Witness for C7_nonneg_without_minus at the input 5 GB. -/
theorem C7_witness :
    (∀ q, CLI.human_size_to_bytes "5 GB".data = some q → 0 ≤ q) ∧
    0 ≤ GUI.human_size_to_bytes "5 GB".data :=
  C7_nonneg_without_minus "5 GB".data (by decide) (by decide) (by decide) (by decide)

end

end ATT
